import Mathlib

/-!
Shallow embedding of the al-quran-api worker core (src/src/index.js).

Strings are modelled as lists of Unicode code points (`List Nat`).
`String.prototype.toLowerCase` is modelled on the code points that occur in
the corpus and queries: ASCII letters fold `A-Z` to `a-z`; Arabic and the
other scripts involved have no case and pass through unchanged.
The regex class `\s` (and `trim`) is modelled by the full JavaScript
whitespace set.
-/

namespace QuranAPI

/-- A JavaScript string as its list of code points. -/
abbrev Str := List Nat

/-- The JavaScript regex `\s` / `String.trim` whitespace set. -/
def isWs (c : Nat) : Bool :=
  c == 9 || c == 10 || c == 11 || c == 12 || c == 13 || c == 32 ||
  c == 160 || c == 5760 || (decide (8192 ≤ c) && decide (c ≤ 8202)) ||
  c == 8232 || c == 8233 || c == 8239 || c == 8287 || c == 12288 || c == 65279

/-- The Alif variants of the regex class `[آأإٱ]` (U+0622, U+0623, U+0625, U+0671). -/
def isAlifVariant (c : Nat) : Bool :=
  c == 1570 || c == 1571 || c == 1573 || c == 1649

/-- `replace(/[آأإٱ]/g, 'ا')` on one code point (ا is U+0627 = 1575). -/
def alifFold (c : Nat) : Nat := if isAlifVariant c then 1575 else c

/-- `replace(/ة/g, 'ه')` on one code point (ة U+0629 = 1577, ه U+0647 = 1607). -/
def tehFold (c : Nat) : Nat := if c == 1577 then 1607 else c

/-- The diacritic range `[ً-ٰٟٱ]` (1611–1631, 1648, 1649). -/
def isDiacritic (c : Nat) : Bool :=
  (decide (1611 ≤ c) && decide (c ≤ 1631)) || c == 1648 || c == 1649

/-- `toLowerCase` on one code point, modelled on ASCII letters. -/
def lowerChar (c : Nat) : Nat := if 65 ≤ c ∧ c ≤ 90 then c + 32 else c

def alifFoldStr (s : Str) : Str := s.map alifFold

def tehFoldStr (s : Str) : Str := s.map tehFold

def stripDiacritics (s : Str) : Str := s.filter (fun c => !isDiacritic c)

def lowerStr (s : Str) : Str := s.map lowerChar

/-- `replace(/\s+/g, ' ')`: each maximal whitespace run becomes one space. -/
def collapseWs : Str → Str
  | [] => []
  | [c] => if isWs c then [32] else [c]
  | c1 :: c2 :: rest =>
      if isWs c1 && isWs c2 then collapseWs (c2 :: rest)
      else (if isWs c1 then 32 else c1) :: collapseWs (c2 :: rest)

/-- Remove a trailing whitespace run. -/
def trimRight (l : Str) : Str :=
  l.foldr (fun c r => if r = [] ∧ isWs c then [] else c :: r) []

/-- `String.prototype.trim`: drop leading and trailing whitespace. -/
def trimWs (s : Str) : Str := trimRight (s.dropWhile isWs)

namespace ArabicTextUtils

/-- `ArabicTextUtils.normalize`: fold Alif variants, fold Teh Marbuta,
strip the diacritic range, collapse whitespace runs, trim, lowercase. -/
def normalize (s : Str) : Str :=
  lowerStr (trimWs (collapseWs (stripDiacritics (tehFoldStr (alifFoldStr s)))))

end ArabicTextUtils

/-- `str.split(/\s+/)`: split at maximal whitespace runs; a leading or
trailing run yields an empty first or last element, as in JavaScript. -/
def splitWs : Str → List Str
  | [] => [[]]
  | c :: rest =>
      if isWs c then
        match rest with
        | r :: _ => if isWs r then splitWs rest else [] :: splitWs rest
        | [] => [[], []]
      else
        match splitWs rest with
        | [] => [[c]]
        | t :: ts => (c :: t) :: ts

/-- Does `t` start the string `s`? -/
def isHeadOf : Str → Str → Bool
  | [], _ => true
  | _ :: _, [] => false
  | a :: as, b :: bs => a == b && isHeadOf as bs

/-- `s.includes(t)`: does `t` occur contiguously in `s`? -/
def occursIn : Str → Str → Bool
  | s, t =>
      isHeadOf t s ||
        match s with
        | [] => false
        | _ :: r => occursIn r t

/-- `Array.prototype.includes` on a list of strings. -/
def listHas (l : List Str) (x : Str) : Bool := l.any (fun y => decide (y = x))

/-! ## Data model

`quran-data.json` (and each translation file) is a list of chapters, each
with a number, a name and a list of numbered verses.  The JSON data itself
is not part of the embedding; every operation is parameterised by it. -/

structure VerseData where
  number : Int
  text : Str
deriving DecidableEq

structure ChapterData where
  number : Int
  name : Str
  verses : List VerseData
deriving DecidableEq

/-- The `chapters` array of a corpus or translation file. -/
abbrev Doc := List ChapterData

/-- `` `${c}:${v}` `` — the location string of a verse. -/
def locString (c v : Int) : String := toString c ++ ":" ++ toString v

namespace Document

/-- `Document.getChapter`: `chapters.find(ch => ch.number === chapterNumber)`. -/
def getChapter (doc : Doc) (chapterNumber : Int) : Option ChapterData :=
  doc.find? (fun ch => decide (ch.number = chapterNumber))

/-- `Chapter.getVerse`: `verses.find(v => v.number === verseNumber)`. -/
def chapterGetVerse (ch : ChapterData) (verseNumber : Int) : Option VerseData :=
  ch.verses.find? (fun v => decide (v.number = verseNumber))

/-- `Document.getVerse`: chapter lookup composed with verse lookup,
returning `none` (JS `null`) when either lookup fails. -/
def getVerse (doc : Doc) (chapterNumber verseNumber : Int) : Option VerseData :=
  (getChapter doc chapterNumber).bind (fun ch => chapterGetVerse ch verseNumber)

end Document

/-- The options bag taken by `Document.searchText`
(`exact`, `normalize`, `caseSensitive`; each defaults to false). -/
structure SearchOptions where
  exact : Bool
  normalize : Bool
  caseSensitive : Bool
deriving DecidableEq

/-- One record pushed by `Document.searchText`. -/
structure SearchResult where
  chapterNumber : Int
  chapterName : Str
  verseNumber : Int
  verseText : Str
  location : String
deriving DecidableEq

namespace Document

/-- The candidate text the per-verse comparison of `Document.searchText`
runs on: the verse text, normalized when `normalize` is set, then
lowercased unless `caseSensitive`. -/
def candText (opts : SearchOptions) (text : Str) : Str :=
  let s1 := if opts.normalize then ArabicTextUtils.normalize text else text
  if opts.caseSensitive then s1 else lowerStr s1

/-- The per-verse match test of `Document.searchText`.  `normalizedQuery`
is computed once from the original query (before the dead
`query = query.toLowerCase()` assignment, which is never read), so when
`caseSensitive` is false only the candidate text is lowercased. -/
def verseMatches (opts : SearchOptions) (normalizedQuery : Str) (text : Str) : Bool :=
  if opts.exact then listHas (splitWs (candText opts text)) normalizedQuery
  else occursIn (candText opts text) normalizedQuery

/-- `normalizedQuery`, computed once from the original query before the
scan loop. -/
def theQuery (opts : SearchOptions) (query : Str) : Str :=
  if opts.normalize then ArabicTextUtils.normalize query else query

/-- `Document.searchText`: scan every chapter and verse in data order and
push a record for each match. -/
def searchText (doc : Doc) (query : Str) (opts : SearchOptions) : List SearchResult :=
  doc.flatMap (fun ch => ch.verses.filterMap (fun ve =>
    if verseMatches opts (theQuery opts query) ve.text then
      some ⟨ch.number, ch.name, ve.number, ve.text, locString ch.number ve.number⟩
    else none))

end Document

/-! ## Tokens -/

/-- The `Token` class: text plus back-reference coordinates. -/
structure Token where
  text : Str
  chapterNumber : Int
  verseNumber : Int
  tokenNumber : Int
deriving DecidableEq

/-- `Token.getLocation`: `` `${chapter}:${verse}:${token}` ``. -/
def Token.getLocation (t : Token) : String :=
  toString t.chapterNumber ++ ":" ++ toString t.verseNumber ++ ":" ++ toString t.tokenNumber

/-- `text.split(/\s+/).filter(t => t.length > 0)` — the non-empty tokens. -/
def tokensOf (text : Str) : List Str := (splitWs text).filter (fun t => decide (t.length > 0))

/-- `.map((token, index) => new Token(token, chapter, verse, index + 1))`,
with `k` the number given to the first token. -/
def numberTokens (c v : Int) (k : Int) : List Str → List Token
  | [] => []
  | t :: ts => ⟨t, c, v, k⟩ :: numberTokens c v (k + 1) ts

namespace Verse

/-- `Verse.getTokens` for a verse with chapter number `c`, verse number `v`
and raw text `text`. -/
def getTokens (c v : Int) (text : Str) : List Token :=
  numberTokens c v 1 (tokensOf text)

/-- `Verse.getTokenCount`. -/
def getTokenCount (text : Str) : Nat := (tokensOf text).length

end Verse

/-! ## TokenSearch -/

/-- One entry of `TokenSearch.searchTerms`: `findToken` pushes
`type: 'exact'`, `findSubstring` pushes `type: 'substring'`. -/
structure Term where
  exact : Bool
  text : Str
deriving DecidableEq

/-- The options bag of the `TokenSearch` constructor. -/
structure TSOptions where
  normalize : Bool
  caseSensitive : Bool
deriving DecidableEq

/-- An entry of a result's `matchingTokens` array. -/
structure TokenMatch where
  number : Int
  text : Str
  location : String
deriving DecidableEq

/-- One record pushed by `TokenSearch.getResults`. -/
structure TokenResult where
  chapterNumber : Int
  chapterName : Str
  verseNumber : Int
  verseText : Str
  location : String
  matchingTokens : List TokenMatch
deriving DecidableEq

namespace TokenSearch

/-- The token-level filter of `TokenSearch.getResults`: the token text is
normalized when the `normalize` option is set, and compared against the
term's raw text (no case folding, no normalization of the term). -/
def tokenPred (nrm : Bool) (term : Term) (t : Str) : Bool :=
  let tokenText := if nrm then ArabicTextUtils.normalize t else t
  if term.exact then decide (tokenText = term.text) else occursIn tokenText term.text

/-- `Document.getVerse(...).getTokens()` as used inside `getResults`.
For a well-formed corpus the lookup always succeeds (the coordinates come
from a search hit); on a missing verse the JS code would throw, which the
embedding renders as the empty token list. -/
def tokensAt (doc : Doc) (c v : Int) : List Token :=
  match Document.getVerse doc c v with
  | some ve => Verse.getTokens c ve.number ve.text
  | none => []

/-- The record pushed for one not-yet-seen search hit. -/
def buildTokenResult (doc : Doc) (nrm : Bool) (term : Term) (r : SearchResult) : TokenResult :=
  let matching := (tokensAt doc r.chapterNumber r.verseNumber).filter
    (fun tok => tokenPred nrm term tok.text)
  ⟨r.chapterNumber, r.chapterName, r.verseNumber, r.verseText, r.location,
    matching.map (fun t => ⟨t.tokenNumber, t.text, t.getLocation⟩)⟩

/-- The inner loop of `getResults`: fold one term's search hits into the
`seenLocations` set, skipping locations already seen. -/
def processResults (doc : Doc) (nrm : Bool) (term : Term) (seen : List String) :
    List SearchResult → List String × List TokenResult
  | [] => (seen, [])
  | r :: rest =>
      if r.location ∈ seen then processResults doc nrm term seen rest
      else
        ((processResults doc nrm term (r.location :: seen) rest).1,
         buildTokenResult doc nrm term r ::
           (processResults doc nrm term (r.location :: seen) rest).2)

/-- The outer loop of `getResults` over the search terms, threading the
`seenLocations` set. -/
def processTerms (doc : Doc) (opts : TSOptions) (seen : List String) :
    List Term → List String × List TokenResult
  | [] => (seen, [])
  | t :: ts =>
      ((processTerms doc opts
          (processResults doc opts.normalize t seen
            (Document.searchText doc t.text ⟨t.exact, opts.normalize, opts.caseSensitive⟩)).1
          ts).1,
       (processResults doc opts.normalize t seen
          (Document.searchText doc t.text ⟨t.exact, opts.normalize, opts.caseSensitive⟩)).2 ++
       (processTerms doc opts
          (processResults doc opts.normalize t seen
            (Document.searchText doc t.text ⟨t.exact, opts.normalize, opts.caseSensitive⟩)).1
          ts).2)

/-- `TokenSearch.getResults` for the given list of search terms. -/
def getResults (doc : Doc) (opts : TSOptions) (terms : List Term) : List TokenResult :=
  (processTerms doc opts [] terms).2

end TokenSearch

/-! ## Translation search and compare (worker fetch handlers) -/

/-- The punctuation class `[.,;:!?()[\]{}'"]` stripped from each word by
the `/api/search/translation` exact match. -/
def isPunct (c : Nat) : Bool :=
  c == 46 || c == 44 || c == 59 || c == 58 || c == 33 || c == 63 ||
  c == 40 || c == 41 || c == 91 || c == 93 || c == 123 || c == 125 ||
  c == 39 || c == 34

/-- `word.replace(/[.,;:!?()[\]{}'"]/g, '')`. -/
def stripPunct (w : Str) : Str := w.filter (fun c => !isPunct c)

/-- The per-verse match test of the `/api/search/translation` handler:
both sides are lowercased; in exact mode each whitespace token is stripped
of punctuation before the equality test. -/
def translationMatches (exactMode : Bool) (q : Str) (text : Str) : Bool :=
  let verseTextLower := lowerStr text
  if exactMode then
    (splitWs verseTextLower).any (fun w => decide (stripPunct w = lowerStr q))
  else occursIn verseTextLower (lowerStr q)

/-- The scan of the `/api/search/translation` handler, keeping the
(chapter, verse) coordinates of the matches in data order. -/
def searchTranslation (tr : Doc) (q : Str) (exactMode : Bool) : List (Int × Int) :=
  tr.flatMap (fun ch => ch.verses.filterMap (fun ve =>
    if translationMatches exactMode q ve.text then some (ch.number, ve.number) else none))

/-- The `/api/compare/{c}/{v}` handler: `none` (HTTP 404) when the primary
verse is missing; otherwise the primary text together with one entry per
loaded translation that has a verse at the coordinate. -/
def compareHandler (doc : Doc) (trs : List (String × Doc)) (c v : Int) :
    Option (Str × List (String × Str)) :=
  match Document.getVerse doc c v with
  | none => none
  | some ve =>
      some (ve.text, trs.filterMap (fun kt =>
        match Document.getVerse kt.2 c v with
        | some tve => some (kt.1, tve.text)
        | none => none))

/-! ## Auxiliary predicates used by the verification -/

/-- No two adjacent characters are both whitespace. -/
def noAdjWs : Str → Bool
  | c1 :: c2 :: rest => !(isWs c1 && isWs c2) && noAdjWs (c2 :: rest)
  | _ => true

/-- The largest chapter number present in a corpus (0 when empty). -/
def maxChapNum (doc : Doc) : Int := doc.foldr (fun ch m => max ch.number m) 0

/-- The largest verse number present in a chapter (0 when empty). -/
def maxVerseNum (ch : ChapterData) : Int := ch.verses.foldr (fun ve m => max ve.number m) 0

/-- Well-formed corpus data: chapter numbers are distinct, and verse
numbers are distinct within each chapter. -/
def WFDoc (doc : Doc) : Prop :=
  (doc.map (fun ch => ch.number)).Nodup ∧
  ∀ ch ∈ doc, (ch.verses.map (fun ve => ve.number)).Nodup

instance (doc : Doc) : Decidable (WFDoc doc) := by
  unfold WFDoc; infer_instance

/-- Strict (chapter, verse) lexicographic order on search records. -/
def recOrd (a b : SearchResult) : Prop :=
  a.chapterNumber < b.chapterNumber ∨
    (a.chapterNumber = b.chapterNumber ∧ a.verseNumber < b.verseNumber)

instance : DecidableRel recOrd := fun a b => by
  unfold recOrd; infer_instance

/-! ## Character-level lemmas -/

lemma isWs_iff {c : Nat} : isWs c = true ↔
    (c = 9 ∨ c = 10 ∨ c = 11 ∨ c = 12 ∨ c = 13 ∨ c = 32 ∨ c = 160 ∨ c = 5760 ∨
     (8192 ≤ c ∧ c ≤ 8202) ∨ c = 8232 ∨ c = 8233 ∨ c = 8239 ∨ c = 8287 ∨
     c = 12288 ∨ c = 65279) := by
  simp only [isWs, Bool.or_eq_true, Bool.and_eq_true, beq_iff_eq, decide_eq_true_eq]
  tauto

lemma isAlifVariant_iff {c : Nat} : isAlifVariant c = true ↔
    (c = 1570 ∨ c = 1571 ∨ c = 1573 ∨ c = 1649) := by
  simp only [isAlifVariant, Bool.or_eq_true, beq_iff_eq]
  tauto

lemma isDiacritic_iff {c : Nat} : isDiacritic c = true ↔
    ((1611 ≤ c ∧ c ≤ 1631) ∨ c = 1648 ∨ c = 1649) := by
  simp only [isDiacritic, Bool.or_eq_true, Bool.and_eq_true, beq_iff_eq, decide_eq_true_eq]
  tauto

lemma lowerChar_idem (c : Nat) : lowerChar (lowerChar c) = lowerChar c := by
  unfold lowerChar
  split
  · split <;> omega
  · rfl

lemma isWs_lowerChar (c : Nat) : isWs (lowerChar c) = isWs c := by
  unfold lowerChar
  split
  · next h =>
    have h1 : isWs (c + 32) = false := by
      apply Bool.eq_false_iff.mpr
      intro hw
      rw [isWs_iff] at hw
      omega
    have h2 : isWs c = false := by
      apply Bool.eq_false_iff.mpr
      intro hw
      rw [isWs_iff] at hw
      omega
    rw [h1, h2]
  · rfl

lemma lowerChar_ws_fixed {c : Nat} (h : isWs c = true) : lowerChar c = c := by
  unfold lowerChar
  split
  · next hr =>
    rw [isWs_iff] at h
    omega
  · rfl

lemma alifFold_no_variant (c : Nat) : isAlifVariant (alifFold c) = false := by
  unfold alifFold
  split
  · decide
  · next h => exact Bool.eq_false_iff.mpr h

lemma tehFold_ne (c : Nat) : tehFold c ≠ 1577 := by
  unfold tehFold
  split
  · decide
  · next h =>
    intro hc
    exact h (by rw [hc]; decide)

lemma tehFold_pres_alif {c : Nat} (h : isAlifVariant c = false) :
    isAlifVariant (tehFold c) = false := by
  unfold tehFold
  split
  · decide
  · exact h

/-- The core character invariant of normalized text: not an Alif variant,
not Teh Marbuta, not a diacritic. -/
def coreOk (c : Nat) : Prop :=
  isAlifVariant c = false ∧ c ≠ 1577 ∧ isDiacritic c = false

lemma coreOk_space : coreOk 32 := by
  refine ⟨by decide, by decide, by decide⟩

lemma lowerChar_pres_core {c : Nat} (h : coreOk c) : coreOk (lowerChar c) := by
  unfold lowerChar
  split
  · next hr =>
    refine ⟨?_, ?_, ?_⟩
    · apply Bool.eq_false_iff.mpr
      intro hw
      rw [isAlifVariant_iff] at hw
      omega
    · omega
    · apply Bool.eq_false_iff.mpr
      intro hw
      rw [isDiacritic_iff] at hw
      omega
  · exact h

lemma coreOk_fixed {c : Nat} (h : coreOk c) :
    alifFold c = c ∧ tehFold c = c := by
  constructor
  · unfold alifFold
    split
    · next hv => rw [h.1] at hv; cases hv
    · rfl
  · unfold tehFold
    split
    · next hv => simp only [beq_iff_eq] at hv; exact absurd hv h.2.1
    · rfl

/-! ## Generic list lemmas -/

lemma map_id_of_mem {f : Nat → Nat} {l : Str} (h : ∀ c ∈ l, f c = c) : l.map f = l := by
  induction l with
  | nil => rfl
  | cons c r ih =>
    simp only [List.map_cons]
    rw [h c (List.mem_cons_self c r), ih (fun x hx => h x (List.mem_cons_of_mem c hx))]

lemma filter_eq_self_of {p : Nat → Bool} {l : Str} (h : ∀ c ∈ l, p c = true) :
    l.filter p = l :=
  List.filter_eq_self.mpr h

/-! ## Whitespace-structure lemmas -/

lemma noAdjWs_cons₂ {c1 c2 : Nat} {r : Str} :
    noAdjWs (c1 :: c2 :: r) = (!(isWs c1 && isWs c2) && noAdjWs (c2 :: r)) := rfl

lemma noAdjWs_tail {c : Nat} {l : Str} (h : noAdjWs (c :: l) = true) : noAdjWs l = true := by
  cases l with
  | nil => rfl
  | cons d r =>
    rw [noAdjWs_cons₂, Bool.and_eq_true] at h
    exact h.2

lemma noAdjWs_cons_of {e : Nat} {X : Str} (hX : noAdjWs X = true)
    (h : isWs e = false ∨ ∀ d r, X = d :: r → isWs d = false) :
    noAdjWs (e :: X) = true := by
  cases X with
  | nil => rfl
  | cons d r =>
    rw [noAdjWs_cons₂, Bool.and_eq_true]
    refine ⟨?_, hX⟩
    rcases h with h | h
    · simp [h]
    · simp [h d r rfl]

lemma collapse_chars {u : Str} {c : Nat} (h : c ∈ collapseWs u) :
    c = 32 ∨ (c ∈ u ∧ isWs c = false) := by
  induction u using collapseWs.induct with
  | case1 => cases h
  | case2 d hd =>
    simp only [collapseWs, if_pos hd] at h
    rcases List.mem_singleton.mp h with rfl
    exact Or.inl rfl
  | case3 d hd =>
    rw [collapseWs, if_neg hd] at h
    rcases List.mem_singleton.mp h with rfl
    exact Or.inr ⟨List.mem_singleton_self _, Bool.eq_false_iff.mpr hd⟩
  | case4 c1 c2 rest hws ih =>
    rw [collapseWs, if_pos hws] at h
    rcases ih h with h32 | ⟨hm, hw⟩
    · exact Or.inl h32
    · exact Or.inr ⟨List.mem_cons_of_mem c1 hm, hw⟩
  | case5 c1 c2 rest hws ih =>
    rw [collapseWs, if_neg hws] at h
    rcases List.mem_cons.mp h with rfl | hm
    · by_cases h1 : isWs c1 = true
      · rw [if_pos h1]
        exact Or.inl rfl
      · rw [if_neg h1]
        exact Or.inr ⟨List.mem_cons_self _ _, Bool.eq_false_iff.mpr h1⟩
    · rcases ih hm with h32 | ⟨hm2, hw⟩
      · exact Or.inl h32
      · exact Or.inr ⟨List.mem_cons_of_mem c1 hm2, hw⟩

lemma collapse_ws32 {u : Str} {c : Nat} (h : c ∈ collapseWs u) (hw : isWs c = true) :
    c = 32 := by
  rcases collapse_chars h with h32 | ⟨_, hf⟩
  · exact h32
  · rw [hf] at hw; cases hw

lemma collapse_head_nonWs {c : Nat} {rest : Str} (h : isWs c = false) :
    ∃ r, collapseWs (c :: rest) = c :: r := by
  cases rest with
  | nil =>
    refine ⟨[], ?_⟩
    rw [collapseWs, if_neg (by simp [h])]
  | cons c2 r =>
    refine ⟨collapseWs (c2 :: r), ?_⟩
    rw [collapseWs, if_neg (by simp [h]), if_neg (by simp [h])]

lemma collapse_noAdj (u : Str) : noAdjWs (collapseWs u) = true := by
  induction u using collapseWs.induct with
  | case1 => rfl
  | case2 d hd => rw [collapseWs, if_pos hd]; rfl
  | case3 d hd => rw [collapseWs, if_neg hd]; rfl
  | case4 c1 c2 rest hws ih => rw [collapseWs, if_pos hws]; exact ih
  | case5 c1 c2 rest hws ih =>
    rw [collapseWs, if_neg hws]
    by_cases h1 : isWs c1 = true
    · rw [if_pos h1]
      have h2 : isWs c2 = false := by
        rcases Bool.and_eq_false_iff.mp (Bool.eq_false_iff.mpr hws) with h | h
        · rw [h] at h1; cases h1
        · exact h
      rcases @collapse_head_nonWs c2 rest h2 with ⟨r, hr⟩
      rw [hr]
      rw [hr] at ih
      rw [noAdjWs_cons₂, Bool.and_eq_true]
      exact ⟨by simp [h2], ih⟩
    · rw [if_neg h1]
      exact noAdjWs_cons_of ih (Or.inl (Bool.eq_false_iff.mpr h1))

lemma collapse_eq_self {l : Str} (h32 : ∀ c ∈ l, isWs c = true → c = 32)
    (hadj : noAdjWs l = true) : collapseWs l = l := by
  induction l using collapseWs.induct with
  | case1 => rfl
  | case2 d hd =>
    rw [collapseWs, if_pos hd, h32 d (List.mem_singleton_self d) hd]
  | case3 d hd => rw [collapseWs, if_neg hd]
  | case4 c1 c2 rest hws ih =>
    rw [noAdjWs_cons₂, Bool.and_eq_true, hws] at hadj
    cases hadj.1
  | case5 c1 c2 rest hws ih =>
    rw [collapseWs, if_neg hws]
    have htl := ih (fun c hc hw => h32 c (List.mem_cons_of_mem c1 hc) hw) (noAdjWs_tail hadj)
    rw [htl]
    by_cases h1 : isWs c1 = true
    · rw [if_pos h1, h32 c1 (List.mem_cons_self _ _) h1]
    · rw [if_neg h1]

lemma trimRight_cons {c : Nat} {l : Str} :
    trimRight (c :: l) = if trimRight l = [] ∧ isWs c = true then [] else c :: trimRight l := by
  simp [trimRight]

lemma mem_trimRight {l : Str} {c : Nat} (h : c ∈ trimRight l) : c ∈ l := by
  induction l with
  | nil => exact h
  | cons d r ih =>
    rw [trimRight_cons] at h
    split at h
    · cases h
    · rcases List.mem_cons.mp h with rfl | hm
      · exact List.mem_cons_self _ _
      · exact List.mem_cons_of_mem d (ih hm)

lemma noAdjWs_trimRight {l : Str} (h : noAdjWs l = true) : noAdjWs (trimRight l) = true := by
  induction l with
  | nil => rfl
  | cons d r ih =>
    rw [trimRight_cons]
    split
    · rfl
    · next hc =>
      have htr := ih (noAdjWs_tail h)
      by_cases hd : isWs d = true
      · have hr : trimRight r ≠ [] := by
          intro hnil
          exact hc ⟨hnil, hd⟩
        cases r with
        | nil => exact absurd rfl hr
        | cons x xs =>
          have hx : isWs x = false := by
            rw [noAdjWs_cons₂, Bool.and_eq_true] at h
            rcases (by simpa using h.1 : isWs d = false ∨ isWs x = false) with h' | h'
            · rw [h'] at hd; cases hd
            · exact h'
          refine noAdjWs_cons_of htr (Or.inr ?_)
          intro e re he
          rw [trimRight_cons] at he
          split at he
          · cases he
          · injection he with h1 h2
            rw [← h1]
            exact hx
      · exact noAdjWs_cons_of htr (Or.inl (Bool.eq_false_iff.mpr hd))

lemma getLast?_trimRight {l : Str} {c : Nat} (h : (trimRight l).getLast? = some c) :
    isWs c = false := by
  induction l with
  | nil => cases h
  | cons d r ih =>
    rw [trimRight_cons] at h
    split at h
    · cases h
    · next hc =>
      cases htr : trimRight r with
      | nil =>
        rw [htr] at h
        rcases Option.some.injEq _ _ ▸ h with rfl
        have hd : ¬ isWs d = true := fun hw => hc ⟨htr, hw⟩
        simp only [List.getLast?_singleton, Option.some.injEq] at h
        rw [← h]
        exact Bool.eq_false_iff.mpr hd
      | cons x xs =>
        rw [htr, List.getLast?_cons_cons] at h
        rw [← htr] at h
        exact ih h

lemma ws32_trimRight {l : Str} (h32 : ∀ c ∈ l, isWs c = true → c = 32) :
    ∀ c ∈ trimRight l, isWs c = true → c = 32 :=
  fun c hc hw => h32 c (mem_trimRight hc) hw

lemma trimRight_eq_self {l : Str} (h : ∀ c, l.getLast? = some c → isWs c = false) :
    trimRight l = l := by
  induction l with
  | nil => rfl
  | cons d r ih =>
    have hr : trimRight r = r := by
      apply ih
      intro c hc
      apply h
      cases r with
      | nil => cases hc
      | cons x xs => rw [List.getLast?_cons_cons]; exact hc
    rw [trimRight_cons, hr]
    split
    · next hcond =>
      rcases hcond with ⟨hnil, hd⟩
      subst hnil
      have := h d rfl
      rw [this] at hd
      cases hd
    · rfl

lemma head_dropWhile_false {l : Str} {c : Nat}
    (h : (l.dropWhile isWs).head? = some c) : isWs c = false := by
  induction l with
  | nil => cases h
  | cons d r ih =>
    rw [List.dropWhile_cons] at h
    split at h
    · exact ih h
    · next hd =>
      rcases Option.some.injEq _ _ ▸ h with h'
      simp only [List.head?_cons, Option.some.injEq] at h
      rw [← h]
      exact Bool.eq_false_iff.mpr hd

lemma mem_dropWhile {p : Nat → Bool} {l : Str} {c : Nat} (h : c ∈ l.dropWhile p) : c ∈ l := by
  induction l with
  | nil => exact h
  | cons d r ih =>
    rw [List.dropWhile_cons] at h
    split at h
    · exact List.mem_cons_of_mem d (ih h)
    · exact h

lemma noAdjWs_dropWhile {l : Str} (h : noAdjWs l = true) :
    noAdjWs (l.dropWhile isWs) = true := by
  induction l with
  | nil => exact h
  | cons d r ih =>
    rw [List.dropWhile_cons]
    split
    · exact ih (noAdjWs_tail h)
    · exact h

lemma dropWhile_eq_self {l : Str} (h : ∀ c, l.head? = some c → isWs c = false) :
    l.dropWhile isWs = l := by
  cases l with
  | nil => rfl
  | cons d r =>
    rw [List.dropWhile_cons, h d rfl]
    simp

lemma head_trimRight {l : Str} {c : Nat} (h : (trimRight l).head? = some c) :
    l.head? = some c := by
  cases l with
  | nil => cases h
  | cons d r =>
    rw [trimRight_cons] at h
    split at h
    · cases h
    · simp only [List.head?_cons, Option.some.injEq] at h ⊢
      exact h

lemma noAdjWs_lowerStr (l : Str) : noAdjWs (lowerStr l) = noAdjWs l := by
  induction l with
  | nil => rfl
  | cons c r ih =>
    cases r with
    | nil => rfl
    | cons d s =>
      show noAdjWs (lowerChar c :: lowerChar d :: lowerStr s) = _
      rw [noAdjWs_cons₂, noAdjWs_cons₂, isWs_lowerChar, isWs_lowerChar]
      show _ = (_ && noAdjWs (d :: s))
      rw [← ih]
      rfl

/-! ## Structure of normalized text -/

lemma normalize_invariants (s : Str) :
    (∀ c ∈ ArabicTextUtils.normalize s,
        coreOk c ∧ lowerChar c = c ∧ (isWs c = true → c = 32)) ∧
    noAdjWs (ArabicTextUtils.normalize s) = true ∧
    (∀ c, (ArabicTextUtils.normalize s).head? = some c → isWs c = false) ∧
    (∀ c, (ArabicTextUtils.normalize s).getLast? = some c → isWs c = false) := by
  unfold ArabicTextUtils.normalize trimWs lowerStr
  set u2 := stripDiacritics (tehFoldStr (alifFoldStr s))
  set u3d := (collapseWs u2).dropWhile isWs
  set u4 := trimRight u3d
  refine ⟨?_, ?_, ?_, ?_⟩
  · intro c hc
    rcases List.mem_map.mp hc with ⟨b, hb, rfl⟩
    have hbu3 : b ∈ collapseWs u2 := mem_dropWhile (mem_trimRight hb)
    have hcore : coreOk b ∧ (isWs b = true → b = 32) := by
      rcases collapse_chars hbu3 with rfl | ⟨hbm, hbw⟩
      · exact ⟨coreOk_space, fun _ => rfl⟩
      · rcases List.mem_filter.mp hbm with ⟨hbmm, hdia⟩
        rcases List.mem_map.mp hbmm with ⟨a, ha, rfl⟩
        rcases List.mem_map.mp ha with ⟨a0, _, rfl⟩
        refine ⟨⟨tehFold_pres_alif (alifFold_no_variant a0), tehFold_ne _,
          by simpa using hdia⟩, ?_⟩
        intro hw
        rw [hbw] at hw
        cases hw
    refine ⟨lowerChar_pres_core hcore.1, lowerChar_idem b, ?_⟩
    intro hw
    rw [isWs_lowerChar] at hw
    rw [hcore.2 hw]
    decide
  · rw [show (List.map lowerChar u4) = lowerStr u4 from rfl, noAdjWs_lowerStr]
    exact noAdjWs_trimRight (noAdjWs_dropWhile (collapse_noAdj u2))
  · intro c hc
    rw [List.head?_map] at hc
    rcases Option.map_eq_some'.mp hc with ⟨b, hb, rfl⟩
    rw [isWs_lowerChar]
    exact head_dropWhile_false (head_trimRight hb)
  · intro c hc
    rw [List.getLast?_map] at hc
    rcases Option.map_eq_some'.mp hc with ⟨b, hb, rfl⟩
    rw [isWs_lowerChar]
    exact getLast?_trimRight hb

/-! ## Claims -/

/-- C1: `ArabicTextUtils.normalize` is idempotent: for every string `s`,
`normalize(normalize(s))` equals `normalize(s)` (Alif folding, Teh Marbuta
folding, diacritic stripping, whitespace collapsing and trimming, and
lowercasing produce text that each step leaves unchanged). -/
theorem claim_C1_normalize_idempotent (s : Str) :
    ArabicTextUtils.normalize (ArabicTextUtils.normalize s) =
      ArabicTextUtils.normalize s := by
  obtain ⟨hchars, hadj, hhead, hlast⟩ := normalize_invariants s
  show lowerStr (trimWs (collapseWs (stripDiacritics (tehFoldStr
    (alifFoldStr (ArabicTextUtils.normalize s)))))) = _
  rw [show alifFoldStr (ArabicTextUtils.normalize s) = ArabicTextUtils.normalize s from
    map_id_of_mem (fun c hc => (coreOk_fixed (hchars c hc).1).1)]
  rw [show tehFoldStr (ArabicTextUtils.normalize s) = ArabicTextUtils.normalize s from
    map_id_of_mem (fun c hc => (coreOk_fixed (hchars c hc).1).2)]
  rw [show stripDiacritics (ArabicTextUtils.normalize s) = ArabicTextUtils.normalize s from
    filter_eq_self_of (fun c hc => by rw [(hchars c hc).1.2.2]; rfl)]
  rw [collapse_eq_self (fun c hc hw => (hchars c hc).2.2 hw) hadj]
  rw [show trimWs (ArabicTextUtils.normalize s) = ArabicTextUtils.normalize s from by
    unfold trimWs
    rw [dropWhile_eq_self hhead]
    exact trimRight_eq_self hlast]
  exact map_id_of_mem (fun c hc => (hchars c hc).2.1)

/-- A one-chapter corpus whose single verse is the text "test". -/
def docTest : Doc := [⟨1, [], [⟨1, [116, 101, 115, 116]⟩]⟩]

/-- A one-chapter corpus whose single verse is the text "testing". -/
def docTesting : Doc := [⟨1, [], [⟨1, [116, 101, 115, 116, 105, 110, 103]⟩]⟩]

/-- The query "TEST". -/
def queryTEST : Str := [84, 69, 83, 84]

/-- C2: searching "TEST" with `exact: true`, `caseSensitive: false`,
`normalize: false` finds nothing even on a verse whose text is exactly
"test": `searchText` compares the tokens of the lowercased candidate with
the original, un-lowercased query (`normalizedQuery` is computed before the
`query.toLowerCase()` assignment, which is dead).  The third conjunct shows
that folding both sides — what the spec describes — would match, and the
second that "testing" is (as the spec says) not matched either way. -/
theorem claim_C2_exact_case_fold_divergence :
    Document.searchText docTest queryTEST ⟨true, false, false⟩ = [] ∧
    Document.searchText docTesting queryTEST ⟨true, false, false⟩ = [] ∧
    listHas (splitWs (lowerStr [116, 101, 115, 116])) (lowerStr queryTEST) = true := by
  exact ⟨rfl, rfl, rfl⟩

/-! ## Lookup lemmas -/

lemma find?_eq_of_nodup_key {α β : Type} [DecidableEq β] (key : α → β) {l : List α}
    {x : α} {k : β} (hnd : (l.map key).Nodup) (hm : x ∈ l) (hk : key x = k) :
    l.find? (fun y => decide (key y = k)) = some x := by
  induction l with
  | nil => cases hm
  | cons d rest ih =>
    by_cases hd : key d = k
    · rw [List.find?_cons_of_pos _ (by simpa using hd)]
      rcases List.mem_cons.mp hm with rfl | hm'
      · rfl
      · exfalso
        rw [List.map_cons, List.nodup_cons] at hnd
        apply hnd.1
        have hmem := List.mem_map_of_mem key hm'
        rw [hk, ← hd] at hmem
        exact hmem
    · rw [List.find?_cons_of_neg _ (by simpa using hd)]
      rcases List.mem_cons.mp hm with rfl | hm'
      · exact absurd hk hd
      · refine ih ?_ hm'
        rw [List.map_cons, List.nodup_cons] at hnd
        exact hnd.2

lemma getChapter_eq_of_mem {doc : Doc} {ch : ChapterData} {c : Int}
    (hnd : (doc.map (fun x => x.number)).Nodup) (hm : ch ∈ doc) (hc : ch.number = c) :
    Document.getChapter doc c = some ch := by
  unfold Document.getChapter
  exact find?_eq_of_nodup_key (fun x => x.number) hnd hm hc

lemma chapterGetVerse_eq_of_mem {ch : ChapterData} {ve : VerseData} {v : Int}
    (hnd : (ch.verses.map (fun x => x.number)).Nodup) (hm : ve ∈ ch.verses)
    (hv : ve.number = v) : Document.chapterGetVerse ch v = some ve := by
  unfold Document.chapterGetVerse
  exact find?_eq_of_nodup_key (fun x => x.number) hnd hm hv

lemma getVerse_isSome_iff {doc : Doc} {c v : Int}
    (hnd : (doc.map (fun x => x.number)).Nodup) :
    (Document.getVerse doc c v).isSome ↔
      ∃ ch, ch ∈ doc ∧ ch.number = c ∧ ∃ ve, ve ∈ ch.verses ∧ ve.number = v := by
  unfold Document.getVerse
  cases hch : Document.getChapter doc c with
  | none =>
    simp only [Option.none_bind]
    constructor
    · intro h
      cases h
    · rintro ⟨ch, hm, hc, _⟩
      rw [getChapter_eq_of_mem hnd hm hc] at hch
      cases hch
  | some ch =>
    have hchm : ch ∈ doc := List.mem_of_find?_eq_some hch
    have hchn : ch.number = c := by
      have := List.find?_some hch
      simpa using this
    simp only [Option.some_bind]
    constructor
    · intro h
      rcases Option.isSome_iff_exists.mp h with ⟨ve, hve⟩
      refine ⟨ch, hchm, hchn, ve, List.mem_of_find?_eq_some hve, ?_⟩
      have := List.find?_some hve
      simpa using this
    · rintro ⟨ch', hm', hc', ve, hvm, hvv⟩
      have : ch' = ch := by
        have h1 := getChapter_eq_of_mem hnd hm' hc'
        rw [h1] at hch
        exact Option.some.injEq _ _ ▸ hch
      subst this
      unfold Document.chapterGetVerse
      rw [List.find?_isSome]
      exact ⟨ve, hvm, by simpa using hvv⟩

lemma le_maxChapNum {doc : Doc} {ch : ChapterData} (h : ch ∈ doc) :
    ch.number ≤ maxChapNum doc := by
  induction doc with
  | nil => cases h
  | cons d rest ih =>
    show ch.number ≤ max d.number (maxChapNum rest)
    rcases List.mem_cons.mp h with rfl | hm
    · exact le_max_left _ _
    · exact le_trans (ih hm) (le_max_right _ _)

lemma le_foldr_maxVerse {ve : VerseData} {l : List VerseData} (h : ve ∈ l) :
    ve.number ≤ l.foldr (fun x m => max x.number m) 0 := by
  induction l with
  | nil => cases h
  | cons d rest ih =>
    show ve.number ≤ max d.number _
    rcases List.mem_cons.mp h with rfl | hm
    · exact le_max_left _ _
    · exact le_trans (ih hm) (le_max_right _ _)

lemma le_maxVerseNum {ch : ChapterData} {ve : VerseData} (h : ve ∈ ch.verses) :
    ve.number ≤ maxVerseNum ch :=
  le_foldr_maxVerse h

/-- C9: `Document.getVerse(c, v)` is total (it returns an `Option`, never
raising): it yields a verse exactly when a chapter numbered `c` exists
containing a verse numbered `v`, and it returns nothing whenever either
coordinate is invalid — zero or negative, beyond the maximum chapter
number, or beyond the chapter's maximum verse number. -/
theorem claim_C9_getVerse_fails_soft (doc : Doc) (c v : Int)
    (hnd : (doc.map (fun x => x.number)).Nodup)
    (hpos : ∀ ch ∈ doc, 0 < ch.number ∧ ∀ ve ∈ ch.verses, 0 < ve.number) :
    ((Document.getVerse doc c v).isSome ↔
      ∃ ch, ch ∈ doc ∧ ch.number = c ∧ ∃ ve, ve ∈ ch.verses ∧ ve.number = v) ∧
    (c ≤ 0 ∨ v ≤ 0 ∨ maxChapNum doc < c → Document.getVerse doc c v = none) ∧
    (∀ ch, Document.getChapter doc c = some ch → maxVerseNum ch < v →
      Document.getVerse doc c v = none) := by
  refine ⟨getVerse_isSome_iff hnd, ?_, ?_⟩
  · intro hbad
    rw [← Option.not_isSome_iff_eq_none]
    intro hs
    rcases (getVerse_isSome_iff hnd).mp hs with ⟨ch, hm, hc, ve, hvm, hvv⟩
    rcases hpos ch hm with ⟨hcpos, hvpos⟩
    rcases hbad with h | h | h
    · omega
    · have := hvpos ve hvm
      omega
    · have := le_maxChapNum hm
      omega
  · intro ch hch hmax
    unfold Document.getVerse
    rw [hch, Option.some_bind, ← Option.not_isSome_iff_eq_none]
    intro hs
    rcases Option.isSome_iff_exists.mp hs with ⟨ve, hve⟩
    have hvm : ve ∈ ch.verses := List.mem_of_find?_eq_some hve
    have hvv : ve.number = v := by simpa using List.find?_some hve
    have := le_maxVerseNum hvm
    omega

/-- Witness for C9 at a concrete corpus and coordinates. -/
theorem claim_C9_getVerse_fails_soft_witness :
    ((docTest.map (fun x => x.number)).Nodup) ∧
    (∀ ch ∈ docTest, 0 < ch.number ∧ ∀ ve ∈ ch.verses, 0 < ve.number) ∧
    (((Document.getVerse docTest 1 1).isSome ↔
      ∃ ch, ch ∈ docTest ∧ ch.number = 1 ∧ ∃ ve, ve ∈ ch.verses ∧ ve.number = 1) ∧
    ((1 : Int) ≤ 0 ∨ (1 : Int) ≤ 0 ∨ maxChapNum docTest < 1 →
      Document.getVerse docTest 1 1 = none) ∧
    (∀ ch, Document.getChapter docTest 1 = some ch → maxVerseNum ch < 1 →
      Document.getVerse docTest 1 1 = none)) :=
  ⟨by decide, by decide, claim_C9_getVerse_fails_soft docTest 1 1 (by decide) (by decide)⟩

/-- C8: the `/api/compare` handler fails with not-found exactly when the
primary verse at `(c, v)` does not exist; when it exists, the returned
translations map has an entry for exactly those loaded translations that
have a verse at `(c, v)` (each carrying that verse's text), and a
translation lacking the verse never fails the whole call — it is merely
omitted. -/
theorem claim_C8_compare_completeness (doc : Doc) (trs : List (String × Doc)) (c v : Int) :
    ((compareHandler doc trs c v).isNone ↔ (Document.getVerse doc c v).isNone) ∧
    (∀ vt entries, compareHandler doc trs c v = some (vt, entries) →
      (∀ k t, (k, t) ∈ entries →
        ∃ tr, (k, tr) ∈ trs ∧ ∃ ve, Document.getVerse tr c v = some ve ∧ ve.text = t) ∧
      (∀ k tr, (k, tr) ∈ trs → (Document.getVerse tr c v).isSome →
        ∃ t, (k, t) ∈ entries)) := by
  unfold compareHandler
  cases hgv : Document.getVerse doc c v with
  | none =>
    refine ⟨by simp, ?_⟩
    intro vt entries h
    cases h
  | some ve =>
    refine ⟨by simp, ?_⟩
    intro vt entries h
    rw [Option.some.injEq] at h
    have hE : entries = trs.filterMap (fun kt =>
        match Document.getVerse kt.2 c v with
        | some tve => some (kt.1, tve.text)
        | none => none) := by
      have := congrArg Prod.snd h
      simpa using this.symm
    subst hE
    constructor
    · intro k t hkt
      rcases List.mem_filterMap.mp hkt with ⟨kt, hktm, hf⟩
      cases hkv : Document.getVerse kt.2 c v with
      | none => rw [hkv] at hf; cases hf
      | some tve =>
        rw [hkv] at hf
        rw [Option.some.injEq] at hf
        have hk : kt.1 = k := congrArg Prod.fst hf
        have ht : tve.text = t := congrArg Prod.snd hf
        refine ⟨kt.2, ?_, tve, hkv, ht⟩
        rw [← hk]
        exact hktm
    · intro k tr hktm hs
      rcases Option.isSome_iff_exists.mp hs with ⟨tve, htve⟩
      refine ⟨tve.text, List.mem_filterMap.mpr ⟨(k, tr), hktm, ?_⟩⟩
      simp only [htve]

/-- Witness for C8 at a concrete corpus, translation set and coordinate. -/
theorem claim_C8_compare_completeness_witness :
    ((compareHandler docTest [("en", docTest), ("ms", [])] 1 1).isNone ↔
      (Document.getVerse docTest 1 1).isNone) ∧
    (∀ vt entries,
      compareHandler docTest [("en", docTest), ("ms", [])] 1 1 = some (vt, entries) →
      (∀ k t, (k, t) ∈ entries →
        ∃ tr, (k, tr) ∈ [("en", docTest), ("ms", ([] : Doc))] ∧
          ∃ ve, Document.getVerse tr 1 1 = some ve ∧ ve.text = t) ∧
      (∀ k tr, (k, tr) ∈ [("en", docTest), ("ms", ([] : Doc))] →
        (Document.getVerse tr 1 1).isSome → ∃ t, (k, t) ∈ entries)) :=
  claim_C8_compare_completeness docTest [("en", docTest), ("ms", [])] 1 1

/-! ## Token lemmas -/

lemma numberTokens_length (c v : Int) (l : List Str) (k : Int) :
    (numberTokens c v k l).length = l.length := by
  induction l generalizing k with
  | nil => rfl
  | cons t ts ih =>
    show (numberTokens c v (k + 1) ts).length + 1 = ts.length + 1
    rw [ih]

lemma numberTokens_getElem? (c v : Int) (l : List Str) (k : Int) (i : Nat) :
    (numberTokens c v k l)[i]? = l[i]?.map (fun t => ⟨t, c, v, k + i⟩) := by
  induction l generalizing k i with
  | nil => simp [numberTokens]
  | cons t ts ih =>
    cases i with
    | zero => simp [numberTokens]
    | succ j =>
      rw [show numberTokens c v k (t :: ts) =
        ⟨t, c, v, k⟩ :: numberTokens c v (k + 1) ts from rfl]
      rw [List.getElem?_cons_succ, List.getElem?_cons_succ, ih (k + 1) j]
      cases hj : ts[j]? with
      | none => simp [hj]
      | some x =>
        simp only [hj, Option.map_some', Option.some.injEq]
        have hcast : k + 1 + (j : Int) = k + ((j : Nat) + 1 : Nat) := by push_cast; omega
        rw [hcast]

lemma numberTokens_fields {c v k : Int} {l : List Str} {tok : Token}
    (h : tok ∈ numberTokens c v k l) :
    tok.chapterNumber = c ∧ tok.verseNumber = v := by
  induction l generalizing k with
  | nil => cases h
  | cons t ts ih =>
    rcases List.mem_cons.mp h with rfl | hm
    · exact ⟨rfl, rfl⟩
    · exact ih hm

/-- C10: `Verse.getTokens` yields exactly `Verse.getTokenCount` tokens (the
non-empty whitespace-delimited segments of the verse text), the `i`-th
being the `i`-th segment numbered `i + 1`, carrying the verse's chapter
and verse numbers, with `getLocation` equal to
`"chapter:verse:token"` built from those numbers. -/
theorem claim_C10_token_enumeration (c v : Int) (text : Str) (i : Nat)
    (hi : i < (tokensOf text).length) :
    (Verse.getTokens c v text).length = Verse.getTokenCount text ∧
    (Verse.getTokens c v text)[i]? =
      some ⟨(tokensOf text).get ⟨i, hi⟩, c, v, (i : Int) + 1⟩ ∧
    ∀ tok ∈ Verse.getTokens c v text,
      tok.chapterNumber = c ∧ tok.verseNumber = v ∧
      tok.getLocation = toString c ++ ":" ++ toString v ++ ":" ++ toString tok.tokenNumber := by
  refine ⟨numberTokens_length c v _ 1, ?_, ?_⟩
  · unfold Verse.getTokens
    rw [numberTokens_getElem? c v _ 1 i]
    rw [List.getElem?_eq_getElem hi]
    simp only [Option.map_some', Option.some.injEq]
    have hcast : (1 : Int) + (i : Int) = (i : Int) + 1 := by omega
    rw [hcast]
    rfl
  · intro tok hm
    rcases numberTokens_fields hm with ⟨hc, hv⟩
    refine ⟨hc, hv, ?_⟩
    unfold Token.getLocation
    rw [hc, hv]

/-- Witness for C10 on a verse "ab c" at coordinate (1, 2), token index 0. -/
theorem claim_C10_token_enumeration_witness :
    0 < (tokensOf [97, 98, 32, 99]).length ∧
    ((Verse.getTokens 1 2 [97, 98, 32, 99]).length =
        Verse.getTokenCount [97, 98, 32, 99] ∧
      (Verse.getTokens 1 2 [97, 98, 32, 99])[0]? =
        some ⟨(tokensOf [97, 98, 32, 99]).get ⟨0, by decide⟩, 1, 2, (0 : Int) + 1⟩ ∧
      ∀ tok ∈ Verse.getTokens 1 2 [97, 98, 32, 99],
        tok.chapterNumber = 1 ∧ tok.verseNumber = 2 ∧
        tok.getLocation =
          toString (1 : Int) ++ ":" ++ toString (2 : Int) ++ ":" ++
            toString tok.tokenNumber) :=
  ⟨by decide, claim_C10_token_enumeration 1 2 [97, 98, 32, 99] 0 (by decide)⟩

/-! ## Split and substring lemmas -/

lemma splitWs_nil : splitWs [] = [[]] := rfl

lemma splitWs_single (c : Nat) : splitWs [c] = if isWs c then [[], []] else [[c]] := rfl

lemma splitWs_cons₂ (c r : Nat) (tail : Str) :
    splitWs (c :: r :: tail) =
      if isWs c then
        (if isWs r then splitWs (r :: tail) else [] :: splitWs (r :: tail))
      else
        match splitWs (r :: tail) with
        | [] => [[c]]
        | t :: ts => (c :: t) :: ts := rfl

lemma splitWs_ne_nil (s : Str) : splitWs s ≠ [] := by
  induction s using splitWs.induct with
  | case1 => rw [splitWs_nil]; simp
  | case2 c hc r tail hr ih => rw [splitWs_cons₂, if_pos hc, if_pos hr]; exact ih
  | case3 c hc r tail hr ih => rw [splitWs_cons₂, if_pos hc, if_neg hr]; simp
  | case4 c hc => rw [splitWs_single, if_pos hc]; simp
  | case5 c rest hc hrest ih => exact absurd hrest ih
  | case6 c rest hc t ts hrest ih =>
    cases rest with
    | nil =>
      rw [splitWs_single, if_neg hc]
      simp
    | cons r tail =>
      rw [splitWs_cons₂, if_neg hc, hrest]
      simp

lemma splitWs_cons_not_ws {c : Nat} {rest t : Str} {ts : List Str}
    (hc : ¬ isWs c = true) (hrest : splitWs rest = t :: ts) :
    splitWs (c :: rest) = (c :: t) :: ts := by
  cases rest with
  | nil =>
    rw [splitWs_nil] at hrest
    injection hrest with h1 h2
    subst h1
    subst h2
    rw [splitWs_single, if_neg hc]
  | cons r tail =>
    rw [splitWs_cons₂, if_neg hc, hrest]

lemma occursIn_nil (t : Str) : occursIn [] t = isHeadOf t [] := by
  show (isHeadOf t [] || false) = isHeadOf t []
  rw [Bool.or_false]

lemma occursIn_cons (c : Nat) (r t : Str) :
    occursIn (c :: r) t = (isHeadOf t (c :: r) || occursIn r t) := rfl

lemma occursIn_of_isHead {s t : Str} (h : isHeadOf t s = true) : occursIn s t = true := by
  cases s with
  | nil => rw [occursIn_nil]; exact h
  | cons c r => rw [occursIn_cons, h, Bool.true_or]

lemma occursIn_cons_of {c : Nat} {r t : Str} (h : occursIn r t = true) :
    occursIn (c :: r) t = true := by
  rw [occursIn_cons, h, Bool.or_true]

lemma head_splitWs_ws (s : Str) : ∀ c : Nat, isWs c = true →
    (splitWs (c :: s)).head? = some [] := by
  induction s with
  | nil =>
    intro c hc
    rw [splitWs_single, if_pos hc]
    rfl
  | cons r tail ih =>
    intro c hc
    rw [splitWs_cons₂, if_pos hc]
    by_cases hr : isWs r = true
    · rw [if_pos hr]
      exact ih r hr
    · rw [if_neg hr]
      rfl

lemma splitWs_head_isHead (s : Str) :
    ∃ h ts, splitWs s = h :: ts ∧ isHeadOf h s = true := by
  induction s using splitWs.induct with
  | case1 => exact ⟨[], [], rfl, rfl⟩
  | case2 c hc r tail hr ih =>
    rcases ih with ⟨h, ts, hsp, _⟩
    have hh : (splitWs (r :: tail)).head? = some [] := head_splitWs_ws tail r hr
    rw [hsp] at hh
    simp only [List.head?_cons, Option.some.injEq] at hh
    refine ⟨[], ts, ?_, rfl⟩
    rw [splitWs_cons₂, if_pos hc, if_pos hr, hsp, hh]
  | case3 c hc r tail hr ih =>
    refine ⟨[], splitWs (r :: tail), ?_, rfl⟩
    rw [splitWs_cons₂, if_pos hc, if_neg hr]
  | case4 c hc =>
    refine ⟨[], [[]], ?_, rfl⟩
    rw [splitWs_single, if_pos hc]
  | case5 c rest hc hrest ih => exact absurd hrest (splitWs_ne_nil rest)
  | case6 c rest hc t ts hrest ih =>
    rcases ih with ⟨h, ts', hsp, hhead⟩
    rw [hsp] at hrest
    injection hrest with h1 h2
    subst h1
    subst h2
    refine ⟨c :: h, ts', splitWs_cons_not_ws hc hsp, ?_⟩
    show (c == c && isHeadOf h rest) = true
    rw [beq_self_eq_true, Bool.true_and]
    exact hhead

lemma occursIn_of_mem_splitWs {s t : Str} (h : t ∈ splitWs s) :
    occursIn s t = true := by
  induction s using splitWs.induct with
  | case1 =>
    rw [splitWs_nil, List.mem_singleton] at h
    subst h
    rfl
  | case2 c hc r tail hr ih =>
    rw [splitWs_cons₂, if_pos hc, if_pos hr] at h
    exact occursIn_cons_of (ih h)
  | case3 c hc r tail hr ih =>
    rw [splitWs_cons₂, if_pos hc, if_neg hr] at h
    rcases List.mem_cons.mp h with rfl | hm
    · exact occursIn_of_isHead rfl
    · exact occursIn_cons_of (ih hm)
  | case4 c hc =>
    rw [splitWs_single, if_pos hc] at h
    have ht : t = [] := by
      rcases List.mem_cons.mp h with rfl | hm
      · rfl
      · simpa using hm
    subst ht
    exact occursIn_of_isHead rfl
  | case5 c rest hc hrest ih => exact absurd hrest (splitWs_ne_nil rest)
  | case6 c rest hc t0 ts hrest ih =>
    rw [splitWs_cons_not_ws hc hrest] at h
    rcases List.mem_cons.mp h with rfl | hm
    · rcases splitWs_head_isHead rest with ⟨h0, ts0, hsp, hhead⟩
      rw [hsp] at hrest
      injection hrest with h1 h2
      subst h1
      apply occursIn_of_isHead
      show (c == c && isHeadOf h0 rest) = true
      rw [beq_self_eq_true, Bool.true_and]
      exact hhead
    · exact occursIn_cons_of (ih (hrest ▸ List.mem_cons_of_mem t0 hm))

lemma listHas_iff {l : List Str} {x : Str} : listHas l x = true ↔ x ∈ l := by
  unfold listHas
  rw [List.any_eq_true]
  constructor
  · rintro ⟨y, hy, hxy⟩
    rw [decide_eq_true_eq] at hxy
    exact hxy ▸ hy
  · intro h
    exact ⟨x, h, by simp⟩

/-! ## Search membership -/

lemma mem_searchText_iff {doc : Doc} {q : Str} {opts : SearchOptions} {r : SearchResult} :
    r ∈ Document.searchText doc q opts ↔
      ∃ ch ∈ doc, ∃ ve ∈ ch.verses,
        Document.verseMatches opts (Document.theQuery opts q) ve.text = true ∧
        r = ⟨ch.number, ch.name, ve.number, ve.text, locString ch.number ve.number⟩ := by
  unfold Document.searchText
  rw [List.mem_flatMap]
  constructor
  · rintro ⟨ch, hch, hr⟩
    rw [List.mem_filterMap] at hr
    rcases hr with ⟨ve, hve, hf⟩
    split at hf
    · next hm =>
      refine ⟨ch, hch, ve, hve, hm, ?_⟩
      rw [Option.some.injEq] at hf
      exact hf.symm
    · cases hf
  · rintro ⟨ch, hch, ve, hve, hm, rfl⟩
    exact ⟨ch, hch, List.mem_filterMap.mpr ⟨ve, hve, by rw [if_pos hm]⟩⟩

lemma verseMatches_exact_imp {opts1 opts2 : SearchOptions} {nq text : Str}
    (he1 : opts1.exact = true) (he2 : opts2.exact = false)
    (hn : opts1.normalize = opts2.normalize)
    (hc : opts1.caseSensitive = opts2.caseSensitive)
    (h : Document.verseMatches opts1 nq text = true) :
    Document.verseMatches opts2 nq text = true := by
  unfold Document.verseMatches at h ⊢
  rw [he1, if_pos rfl] at h
  rw [he2, if_neg (by simp)]
  have hcand : Document.candText opts1 text = Document.candText opts2 text := by
    unfold Document.candText
    rw [hn, hc]
  rw [← hcand]
  exact occursIn_of_mem_splitWs (listHas_iff.mp h)

/-- C6: search monotonicity — every record returned by exact-match search
with `normalize: true` is also returned by substring search with
`normalize: true` for the same query (a whitespace token of the candidate
text that equals the normalized query is in particular a contiguous
occurrence in that text). -/
theorem claim_C6_exact_subset_substring (doc : Doc) (q : Str) (cs : Bool)
    (r : SearchResult) (h : r ∈ Document.searchText doc q ⟨true, true, cs⟩) :
    r ∈ Document.searchText doc q ⟨false, true, cs⟩ := by
  rw [mem_searchText_iff] at h ⊢
  rcases h with ⟨ch, hch, ve, hve, hm, hr⟩
  exact ⟨ch, hch, ve, hve,
    @verseMatches_exact_imp ⟨true, true, cs⟩ ⟨false, true, cs⟩
      (Document.theQuery ⟨true, true, cs⟩ q) ve.text rfl rfl rfl rfl hm, hr⟩

/-- Witness for C6: the exact hit for "test" on the one-verse corpus is
also a substring hit. -/
theorem claim_C6_exact_subset_substring_witness :
    (⟨1, [], 1, [116, 101, 115, 116], locString 1 1⟩ : SearchResult) ∈
      Document.searchText docTest [116, 101, 115, 116] ⟨true, true, false⟩ ∧
    (⟨1, [], 1, [116, 101, 115, 116], locString 1 1⟩ : SearchResult) ∈
      Document.searchText docTest [116, 101, 115, 116] ⟨false, true, false⟩ :=
  ⟨by decide, claim_C6_exact_subset_substring docTest [116, 101, 115, 116] false
    ⟨1, [], 1, [116, 101, 115, 116], locString 1 1⟩ (by decide)⟩

/-! ## Translation search -/

lemma mem_searchTranslation_iff {tr : Doc} {q : Str} {em : Bool} {c v : Int} :
    (c, v) ∈ searchTranslation tr q em ↔
      ∃ ch ∈ tr, ch.number = c ∧ ∃ ve ∈ ch.verses, ve.number = v ∧
        translationMatches em q ve.text = true := by
  unfold searchTranslation
  rw [List.mem_flatMap]
  constructor
  · rintro ⟨ch, hch, hr⟩
    rw [List.mem_filterMap] at hr
    rcases hr with ⟨ve, hve, hf⟩
    split at hf
    · next hm =>
      rw [Option.some.injEq, Prod.mk.injEq] at hf
      exact ⟨ch, hch, hf.1, ve, hve, hf.2, hm⟩
    · cases hf
  · rintro ⟨ch, hch, hc, ve, hve, hv, hm⟩
    refine ⟨ch, hch, List.mem_filterMap.mpr ⟨ve, hve, ?_⟩⟩
    rw [if_pos hm, hc, hv]

lemma translationExact_iff {q text : Str} :
    translationMatches true q text = true ↔
      ∃ w ∈ splitWs (lowerStr text), stripPunct w = lowerStr q := by
  unfold translationMatches
  rw [if_pos rfl, List.any_eq_true]
  constructor
  · rintro ⟨w, hw, hww⟩
    exact ⟨w, hw, decide_eq_true_eq.mp hww⟩
  · rintro ⟨w, hw, hww⟩
    exact ⟨w, hw, decide_eq_true_eq.mpr hww⟩

/-- A one-chapter translation whose single verse is the text "mercy,". -/
def trMercy : Doc := [⟨1, [], [⟨1, [109, 101, 114, 99, 121, 44]⟩]⟩]

/-- The query "mercy". -/
def queryMercy : Str := [109, 101, 114, 99, 121]

/-- C5 counterexample: exact-word translation search for "mercy" reports
the verse whose text is "mercy," although no whitespace-delimited token of
the case-folded text equals the case-folded query — the handler strips the
punctuation characters from each token first, a transformation the
primary-text exact search does not perform. -/
theorem claim_C5_counterexample :
    searchTranslation trMercy queryMercy true = [(1, 1)] ∧
    (∀ w ∈ splitWs (lowerStr [109, 101, 114, 99, 121, 44]), w ≠ lowerStr queryMercy) ∧
    Document.searchText
      [⟨1, [], [⟨1, [109, 101, 114, 99, 121, 44]⟩]⟩] queryMercy ⟨true, false, false⟩ = [] := by
  exact ⟨rfl, by decide, rfl⟩

/-- C5 (amended): `searchInTranslation` with type `exact` reports a verse
iff at least one whitespace-delimited token of the case-folded translation
text, after removal of the punctuation characters `.,;:!?()[]{}'"`,
equals the case-folded query. -/
theorem claim_C5_translation_exact_semantics (tr : Doc) (q : Str) (c v : Int) :
    (c, v) ∈ searchTranslation tr q true ↔
      ∃ ch ∈ tr, ch.number = c ∧ ∃ ve ∈ ch.verses, ve.number = v ∧
        ∃ w ∈ splitWs (lowerStr ve.text), stripPunct w = lowerStr q := by
  rw [mem_searchTranslation_iff]
  constructor
  · rintro ⟨ch, hch, hc, ve, hve, hv, hm⟩
    exact ⟨ch, hch, hc, ve, hve, hv, translationExact_iff.mp hm⟩
  · rintro ⟨ch, hch, hc, ve, hve, hv, hm⟩
    exact ⟨ch, hch, hc, ve, hve, hv, translationExact_iff.mpr hm⟩

/-! ## TokenSearch loop lemmas -/

namespace TokenSearch

lemma buildTokenResult_location (doc : Doc) (nrm : Bool) (term : Term) (r : SearchResult) :
    (buildTokenResult doc nrm term r).location = r.location := rfl

lemma processResults_cons (doc : Doc) (nrm : Bool) (term : Term) (seen : List String)
    (r : SearchResult) (rest : List SearchResult) :
    processResults doc nrm term seen (r :: rest) =
      if r.location ∈ seen then processResults doc nrm term seen rest
      else ((processResults doc nrm term (r.location :: seen) rest).1,
            buildTokenResult doc nrm term r ::
              (processResults doc nrm term (r.location :: seen) rest).2) := rfl

lemma processResults_seen_mono (doc : Doc) (nrm : Bool) (term : Term) :
    ∀ (rs : List SearchResult) (seen : List String) (k : String), k ∈ seen →
      k ∈ (processResults doc nrm term seen rs).1 := by
  intro rs
  induction rs with
  | nil => intro seen k hk; exact hk
  | cons r rest ih =>
    intro seen k hk
    rw [processResults_cons]
    split
    · exact ih seen k hk
    · exact ih (r.location :: seen) k (List.mem_cons_of_mem _ hk)

lemma processResults_out_fresh (doc : Doc) (nrm : Bool) (term : Term) :
    ∀ (rs : List SearchResult) (seen : List String) (x : TokenResult),
      x ∈ (processResults doc nrm term seen rs).2 →
      x.location ∉ seen ∧ x.location ∈ (processResults doc nrm term seen rs).1 := by
  intro rs
  induction rs with
  | nil => intro seen x hx; cases hx
  | cons r rest ih =>
    intro seen x hx
    rw [processResults_cons] at hx ⊢
    split at hx
    · next hmem =>
      rw [if_pos hmem]
      exact ih seen x hx
    · next hmem =>
      rw [if_neg hmem]
      rcases List.mem_cons.mp hx with rfl | hm
      · rw [buildTokenResult_location]
        exact ⟨hmem, processResults_seen_mono doc nrm term rest (r.location :: seen)
          r.location (List.mem_cons_self _ _)⟩
      · rcases ih (r.location :: seen) x hm with ⟨hnot, hin⟩
        exact ⟨fun hk => hnot (List.mem_cons_of_mem _ hk), hin⟩

lemma processResults_nodup (doc : Doc) (nrm : Bool) (term : Term) :
    ∀ (rs : List SearchResult) (seen : List String),
      (((processResults doc nrm term seen rs).2).map (fun x => x.location)).Nodup := by
  intro rs
  induction rs with
  | nil => intro seen; exact List.nodup_nil
  | cons r rest ih =>
    intro seen
    rw [processResults_cons]
    split
    · exact ih seen
    · next hmem =>
      rw [List.map_cons, List.nodup_cons]
      refine ⟨?_, ih (r.location :: seen)⟩
      intro hk
      rcases List.mem_map.mp hk with ⟨x, hx, hxl⟩
      rcases processResults_out_fresh doc nrm term rest (r.location :: seen) x hx with ⟨hnot, _⟩
      rw [buildTokenResult_location] at hxl
      exact hnot (hxl ▸ List.mem_cons_self _ _)

lemma processResults_out_build (doc : Doc) (nrm : Bool) (term : Term) :
    ∀ (rs : List SearchResult) (seen : List String) (x : TokenResult),
      x ∈ (processResults doc nrm term seen rs).2 →
      ∃ sr ∈ rs, x = buildTokenResult doc nrm term sr := by
  intro rs
  induction rs with
  | nil => intro seen x hx; cases hx
  | cons r rest ih =>
    intro seen x hx
    rw [processResults_cons] at hx
    split at hx
    · rcases ih seen x hx with ⟨sr, hsr, hb⟩
      exact ⟨sr, List.mem_cons_of_mem r hsr, hb⟩
    · rcases List.mem_cons.mp hx with rfl | hm
      · exact ⟨r, List.mem_cons_self _ _, rfl⟩
      · rcases ih (r.location :: seen) x hm with ⟨sr, hsr, hb⟩
        exact ⟨sr, List.mem_cons_of_mem r hsr, hb⟩

lemma processTerms_seen_mono (doc : Doc) (opts : TSOptions) :
    ∀ (ts : List Term) (seen : List String) (k : String), k ∈ seen →
      k ∈ (processTerms doc opts seen ts).1 := by
  intro ts
  induction ts with
  | nil => intro seen k hk; exact hk
  | cons t rest ih =>
    intro seen k hk
    exact ih _ k (processResults_seen_mono doc opts.normalize t _ seen k hk)

lemma processTerms_out_fresh (doc : Doc) (opts : TSOptions) :
    ∀ (ts : List Term) (seen : List String) (x : TokenResult),
      x ∈ (processTerms doc opts seen ts).2 →
      x.location ∉ seen ∧ x.location ∈ (processTerms doc opts seen ts).1 := by
  intro ts
  induction ts with
  | nil => intro seen x hx; cases hx
  | cons t rest ih =>
    intro seen x hx
    rcases List.mem_append.mp hx with hm | hm
    · rcases processResults_out_fresh doc opts.normalize t _ seen x hm with ⟨hnot, hin⟩
      exact ⟨hnot, processTerms_seen_mono doc opts rest _ x.location hin⟩
    · rcases ih _ x hm with ⟨hnot, hin⟩
      exact ⟨fun hk =>
        hnot (processResults_seen_mono doc opts.normalize t _ seen x.location hk), hin⟩

lemma processTerms_nodup (doc : Doc) (opts : TSOptions) :
    ∀ (ts : List Term) (seen : List String),
      (((processTerms doc opts seen ts).2).map (fun x => x.location)).Nodup := by
  intro ts
  induction ts with
  | nil => intro seen; exact List.nodup_nil
  | cons t rest ih =>
    intro seen
    rw [show (processTerms doc opts seen (t :: rest)).2 =
      (processResults doc opts.normalize t seen
          (Document.searchText doc t.text ⟨t.exact, opts.normalize, opts.caseSensitive⟩)).2 ++
        (processTerms doc opts
          (processResults doc opts.normalize t seen
            (Document.searchText doc t.text
              ⟨t.exact, opts.normalize, opts.caseSensitive⟩)).1 rest).2 from rfl]
    rw [List.map_append, List.nodup_append]
    refine ⟨processResults_nodup doc opts.normalize t _ seen, ih _, ?_⟩
    intro a ha hb
    rcases List.mem_map.mp ha with ⟨x, hx, rfl⟩
    rcases List.mem_map.mp hb with ⟨y, hy, hyl⟩
    rcases processResults_out_fresh doc opts.normalize t _ seen x hx with ⟨_, hin⟩
    rcases processTerms_out_fresh doc opts rest _ y hy with ⟨hnot, _⟩
    exact hnot (hyl ▸ hin)

lemma processTerms_out_build (doc : Doc) (opts : TSOptions) :
    ∀ (ts : List Term) (seen : List String) (x : TokenResult),
      x ∈ (processTerms doc opts seen ts).2 →
      ∃ t ∈ ts, ∃ sr ∈ Document.searchText doc t.text
          ⟨t.exact, opts.normalize, opts.caseSensitive⟩,
        x = buildTokenResult doc opts.normalize t sr := by
  intro ts
  induction ts with
  | nil => intro seen x hx; cases hx
  | cons t rest ih =>
    intro seen x hx
    rcases List.mem_append.mp hx with hm | hm
    · rcases processResults_out_build doc opts.normalize t _ seen x hm with ⟨sr, hsr, hb⟩
      exact ⟨t, List.mem_cons_self _ _, sr, hsr, hb⟩
    · rcases ih _ x hm with ⟨t', ht', sr, hsr, hb⟩
      exact ⟨t', List.mem_cons_of_mem t ht', sr, hsr, hb⟩

end TokenSearch

/-- C3 (amended): in a batch `TokenSearch.getResults` call, every location
is reported at most once, and the matchingTokens attached to the single
record for a verse are those selected by the token predicate of one single
query term (the first whose scan reached the verse) — not the union over
all matching terms. -/
theorem claim_C3_batch_dedup (doc : Doc) (opts : TSOptions) (terms : List Term) :
    ((TokenSearch.getResults doc opts terms).map (fun r => r.location)).Nodup ∧
    ∀ r ∈ TokenSearch.getResults doc opts terms, ∃ t ∈ terms,
      r.matchingTokens =
        ((TokenSearch.tokensAt doc r.chapterNumber r.verseNumber).filter
          (fun tok => TokenSearch.tokenPred opts.normalize t tok.text)).map
          (fun t0 => ⟨t0.tokenNumber, t0.text, t0.getLocation⟩) := by
  constructor
  · exact TokenSearch.processTerms_nodup doc opts terms []
  · intro r hr
    rcases TokenSearch.processTerms_out_build doc opts terms [] r hr with ⟨t, ht, sr, _, rfl⟩
    exact ⟨t, ht, rfl⟩

/-- A one-chapter corpus whose single verse is the text "ab cd". -/
def docABCD : Doc := [⟨1, [], [⟨1, [97, 98, 32, 99, 100]⟩]⟩]

/-- C3 counterexample: a batch search with the two substring terms "ab"
and "cd" over the verse "ab cd" reports the verse once, but with only the
first term's matching token "ab" attached — not the union {"ab", "cd"},
although the second term also matches the verse. -/
theorem claim_C3_counterexample :
    (TokenSearch.getResults docABCD ⟨false, false⟩
        [⟨false, [97, 98]⟩, ⟨false, [99, 100]⟩]).map
      (fun r => (r.location, r.matchingTokens.map (fun m => m.text))) =
      [("1:1", [[97, 98]])] ∧
    (Document.searchText docABCD [99, 100] ⟨false, false, false⟩).map
      (fun r => r.location) = ["1:1"] := by
  exact ⟨rfl, rfl⟩

/-- A one-chapter corpus whose single verse is the text "ab". -/
def docAB : Doc := [⟨1, [], [⟨1, [97, 98]⟩]⟩]

/-- C4 counterexample: with `normalize: true`, an exact search for the
query "AB" returns the verse "ab" (the verse-level test compares against
the normalized query "ab"), whose only token normalizes to exactly the
normalized query — yet `matchingTokens` is empty, because the token-level
filter compares the normalized token against the raw query "AB". -/
theorem claim_C4_counterexample :
    (TokenSearch.getResults docAB ⟨true, false⟩ [⟨true, [65, 66]⟩]).map
      (fun r => (r.location, r.matchingTokens)) = [("1:1", [])] ∧
    ArabicTextUtils.normalize [97, 98] = ArabicTextUtils.normalize [65, 66] := by
  exact ⟨rfl, rfl⟩

/-- C4 (amended): each record's `matchingTokens` are exactly the matched
verse's tokens whose text — normalized when the `normalize` option is set,
raw otherwise, with no case folding — matches the originating term's RAW
query text under that term's predicate (equality or containment); the
query is neither normalized nor case-folded at the token stage, so this
coincides with the claim only when the query is already in normalized
form. -/
theorem claim_C4_matching_tokens (doc : Doc) (opts : TSOptions) (terms : List Term)
    (hnd : (doc.map (fun x => x.number)).Nodup)
    (hvnd : ∀ ch ∈ doc, (ch.verses.map (fun x => x.number)).Nodup) :
    ∀ r ∈ TokenSearch.getResults doc opts terms, ∃ t ∈ terms, ∃ ch ∈ doc, ∃ ve ∈ ch.verses,
      ch.number = r.chapterNumber ∧ ve.number = r.verseNumber ∧ r.verseText = ve.text ∧
      r.matchingTokens =
        ((Verse.getTokens ch.number ve.number ve.text).filter
          (fun tok => TokenSearch.tokenPred opts.normalize t tok.text)).map
          (fun t0 => ⟨t0.tokenNumber, t0.text, t0.getLocation⟩) := by
  intro r hr
  rcases TokenSearch.processTerms_out_build doc opts terms [] r hr with ⟨t, ht, sr, hsr, rfl⟩
  rw [mem_searchText_iff] at hsr
  rcases hsr with ⟨ch, hch, ve, hve, _, rfl⟩
  have hgv : Document.getVerse doc ch.number ve.number = some ve := by
    unfold Document.getVerse
    rw [getChapter_eq_of_mem hnd hch rfl, Option.some_bind]
    exact chapterGetVerse_eq_of_mem (hvnd ch hch) hve rfl
  have htok : TokenSearch.tokensAt doc ch.number ve.number =
      Verse.getTokens ch.number ve.number ve.text := by
    unfold TokenSearch.tokensAt
    rw [hgv]
  refine ⟨t, ht, ch, hch, ve, hve, rfl, rfl, rfl, ?_⟩
  show ((TokenSearch.tokensAt doc ch.number ve.number).filter _).map _ = _
  rw [htok]

/-- Witness for C4 at the concrete "ab" corpus with exact term "AB" and
`normalize: true`. -/
theorem claim_C4_matching_tokens_witness :
    ((docAB.map (fun x => x.number)).Nodup) ∧
    (∀ ch ∈ docAB, (ch.verses.map (fun x => x.number)).Nodup) ∧
    (∀ r ∈ TokenSearch.getResults docAB ⟨true, false⟩ [⟨true, [65, 66]⟩],
      ∃ t ∈ [(⟨true, [65, 66]⟩ : Term)], ∃ ch ∈ docAB, ∃ ve ∈ ch.verses,
        ch.number = r.chapterNumber ∧ ve.number = r.verseNumber ∧ r.verseText = ve.text ∧
        r.matchingTokens =
          ((Verse.getTokens ch.number ve.number ve.text).filter
            (fun tok => TokenSearch.tokenPred true t tok.text)).map
            (fun t0 => ⟨t0.tokenNumber, t0.text, t0.getLocation⟩)) :=
  ⟨by decide, by decide,
    claim_C4_matching_tokens docAB ⟨true, false⟩ [⟨true, [65, 66]⟩] (by decide) (by decide)⟩

/-! ## Output ordering -/

/-- A one-chapter corpus with verse 1 "a" and verse 2 "b". -/
def docA_B : Doc := [⟨1, [], [⟨1, [97]⟩, ⟨2, [98]⟩]⟩]

/-- C7 counterexample: a batch search whose first term matches only verse
1:2 and whose second term matches only verse 1:1 returns the records in
term order — verse 2 before verse 1 — so batch output is not ordered by
chapter and verse. -/
theorem claim_C7_counterexample :
    ∃ r1 r2, TokenSearch.getResults docA_B ⟨false, false⟩
        [⟨false, [98]⟩, ⟨false, [97]⟩] = [r1, r2] ∧
      r1.chapterNumber = r2.chapterNumber ∧ r2.verseNumber < r1.verseNumber := by
  refine ⟨⟨1, [], 2, [98], "1:2", [⟨1, [98], "1:2:1"⟩]⟩,
    ⟨1, [], 1, [97], "1:1", [⟨1, [97], "1:1:1"⟩]⟩, ?_, rfl, ?_⟩
  · decide
  · decide

/-- C7 (amended): a single `Document.searchText` scan (and hence each
term's contribution to `TokenSearch.getResults`) emits its records in
chapter-ascending, then verse-ascending order, provided the corpus stores
chapters and verses in ascending number order; a batch `getResults` call
concatenates the per-term record lists in term order, so its overall
output need not be globally sorted. -/
theorem claim_C7_searchText_ordered (doc : Doc) (q : Str) (opts : SearchOptions)
    (hc : (doc.map (fun ch => ch.number)).Pairwise (· < ·))
    (hv : ∀ ch ∈ doc, (ch.verses.map (fun ve => ve.number)).Pairwise (· < ·)) :
    (Document.searchText doc q opts).Pairwise recOrd := by
  induction doc with
  | nil => exact List.Pairwise.nil
  | cons ch rest ih =>
    show (Document.searchText (ch :: rest) q opts).Pairwise recOrd
    unfold Document.searchText
    rw [List.flatMap_cons, List.pairwise_append]
    refine ⟨?_, ?_, ?_⟩
    · rw [List.pairwise_filterMap]
      have hvch := hv ch (List.mem_cons_self _ _)
      rw [List.pairwise_map] at hvch
      refine hvch.imp ?_
      intro ve ve' hlt b hb b' hb'
      split at hb
      · split at hb'
        · have hbe := Option.mem_some_iff.mp hb
          have hbe' := Option.mem_some_iff.mp hb'
          subst hbe
          subst hbe'
          exact Or.inr ⟨rfl, hlt⟩
        · exact absurd hb' (Option.not_mem_none _)
      · exact absurd hb (Option.not_mem_none _)
    · have : (Document.searchText rest q opts).Pairwise recOrd := by
        apply ih
        · rw [List.map_cons, List.pairwise_cons] at hc
          exact hc.2
        · intro ch' hm
          exact hv ch' (List.mem_cons_of_mem _ hm)
      unfold Document.searchText at this
      exact this
    · intro a ha b hb
      rw [List.mem_filterMap] at ha
      rcases ha with ⟨ve, _, hf⟩
      have hac : a.chapterNumber = ch.number := by
        split at hf
        · rw [Option.some.injEq] at hf
          rw [← hf]
        · cases hf
      have hb' : b ∈ Document.searchText rest q opts := hb
      rw [mem_searchText_iff] at hb'
      rcases hb' with ⟨ch', hm', ve', _, _, rfl⟩
      rw [List.map_cons, List.pairwise_cons] at hc
      have := hc.1 ch'.number (List.mem_map_of_mem _ hm')
      exact Or.inl (by rw [hac]; exact this)

/-- Witness for C7 on a sorted two-verse corpus. -/
theorem claim_C7_searchText_ordered_witness :
    ((docA_B.map (fun ch => ch.number)).Pairwise (· < ·)) ∧
    (∀ ch ∈ docA_B, (ch.verses.map (fun ve => ve.number)).Pairwise (· < ·)) ∧
    (Document.searchText docA_B [97] ⟨false, false, false⟩).Pairwise recOrd :=
  ⟨by decide, by decide,
    claim_C7_searchText_ordered docA_B [97] ⟨false, false, false⟩ (by decide) (by decide)⟩

end QuranAPI
